import Mathlib

/-!
Verification of the EmailNewsSummarizer pipeline: a shallow embedding of
the batching, link-extraction, topic-aggregation and retry logic of
`get_top_topics.py`, `get_summaries.py`, `get_top_topics_and_links.py`
and `utils.py`, together with theorems settling the specification's
claims about it.

Modelling conventions:
* text is `List Char` where character-level operations matter (the
  regexes, `str.split`, `str.strip`) and `String` where the code only
  concatenates;
* the black-box OpenAI completion call is a parameter
  `complete : String → String`; functions that issue completion calls
  also return the ordered list of prompts they sent, so "no completion
  call is issued" is expressible;
* the tiktoken tokenizer is a parameter `count_tokens : String → Nat`
  (the spec's estimate_cost contract allows any consistent estimator).
-/

namespace EmailNewsSummarizer

/-- Model of Python's whitespace test: the character class `\s` of the
regular expressions in `get_summaries.py`, and the characters removed by
`str.strip()`. -/
def wsChar (c : Char) : Bool := c.isWhitespace

/-- A character admitted by the URL pattern's body `[^\s]+`: any
non-whitespace character. -/
def nonWs (c : Char) : Bool := !(wsChar c)

/-- If `p` is a leading segment of `cs`, return the rest of `cs`;
otherwise `none`.  Helper for literal parts of the regex
`(https?://[^\s]+)` and for Python's substring test and
`str.split(pat, 1)`. -/
def stripPfx : List Char → List Char → Option (List Char)
  | [], cs => some cs
  | _ :: _, [] => none
  | p :: ps, c :: cs => if p = c then stripPfx ps cs else none

/-- The literal `http` (the splitting marker of
`summarize_and_extract_links` and the mandatory part of the URL
scheme). -/
def httpPat : List Char := ['h', 't', 't', 'p']

/-- The literal `https` (the longer alternative of `https?`). -/
def httpsPat : List Char := ['h', 't', 't', 'p', 's']

/-- The literal `://` of the URL pattern. -/
def schemeSep : List Char := [':', '/', '/']

/-- One anchored attempt of the URL pattern with a fixed scheme literal:
the scheme, then `://`, then a maximal non-empty run of non-whitespace
characters (`[^\s]+`, greedy).  Returns the matched text and the
remaining input. -/
def tryScheme (scheme : List Char) (cs : List Char) : Option (List Char × List Char) :=
  match stripPfx scheme cs with
  | none => none
  | some r =>
    match stripPfx schemeSep r with
    | none => none
    | some r2 =>
      let body := r2.takeWhile nonWs
      if body = [] then none
      else some (scheme ++ schemeSep ++ body, r2.dropWhile nonWs)

/-- One anchored attempt of the full pattern `https?://[^\s]+` at the
start of `cs`, with the regex engine's preference for the longer
alternative of `https?` first. -/
def matchURL (cs : List Char) : Option (List Char × List Char) :=
  match tryScheme httpsPat cs with
  | some res => some res
  | none => tryScheme httpPat cs

/-- `re.findall(r'(https?://[^\s]+)', text)` of `extract_links` in
`get_summaries.py`: scan left to right; at each position take the
anchored match if there is one and continue after it, otherwise advance
one character.  The ordered list of matches. -/
def findall_urls : List Char → List (List Char)
  | [] => []
  | c :: cs =>
    match h : matchURL (c :: cs) with
    | some (m, rest) => m :: findall_urls rest
    | none => findall_urls cs
termination_by l => l.length
decreasing_by
  · -- the anchored match consumes at least the scheme and the separator
    have hstrip : ∀ (p u r : List Char), stripPfx p u = some r → u = p ++ r := by
      intro p
      induction p with
      | nil =>
        intro u r hh
        simp only [stripPfx, Option.some.injEq] at hh
        simp [hh]
      | cons a ps ih =>
        intro u r hh
        cases u with
        | nil => simp [stripPfx] at hh
        | cons c cs =>
          simp only [stripPfx] at hh
          split at hh
          · rename_i hac
            subst hac
            simpa using ih cs r hh
          · exact absurd hh (by simp)
    have htry : ∀ (scheme u m rest : List Char),
        tryScheme scheme u = some (m, rest) → rest.length < u.length := by
      intro scheme u m rest hh
      simp only [tryScheme] at hh
      split at hh
      · exact absurd hh (by simp)
      · rename_i r h1
        split at hh
        · exact absurd hh (by simp)
        · rename_i r2 h2
          split at hh
          · exact absurd hh (by simp)
          · rename_i hb
            simp only [Option.some.injEq, Prod.mk.injEq] at hh
            have hrest : r2.dropWhile nonWs = rest := hh.2
            have hle : rest.length ≤ r2.length := by
              rw [← hrest]
              exact (List.dropWhile_sublist nonWs).length_le
            have hu : u = scheme ++ (schemeSep ++ r2) := by
              rw [hstrip _ _ _ h1, hstrip _ _ _ h2]
            have : u.length = scheme.length + (3 + r2.length) := by
              rw [hu]
              simp [schemeSep]
              omega
            omega
    simp only [matchURL] at h
    split at h
    · rename_i res h1
      simp only [Option.some.injEq] at h
      subst h
      simpa using htry _ _ _ _ h1
    · rename_i h1
      simpa using htry _ _ _ _ h
  · simp

/-- `extract_links` of `get_summaries.py`: all URLs of a text, in
order. -/
def extract_links (text : List Char) : List (List Char) := findall_urls text

/-- Python's `response.split("http", 1)` restricted to the case used in
`summarize_and_extract_links`: `some (before, after)` when `http` occurs
(`before` is everything before the first occurrence, `after` everything
after that occurrence's four characters), `none` when it does not
(Python's `"http" in response` test is false). -/
def splitHttp : List Char → Option (List Char × List Char)
  | [] => none
  | c :: cs =>
    match stripPfx httpPat (c :: cs) with
    | some rest => some ([], rest)
    | none =>
      match splitHttp cs with
      | some (b, a) => some (c :: b, a)
      | none => none

/-- The index of the first occurrence of the literal `http` in a text,
if any (the position at which the split-on-first-`http` heuristic
separates summary from links). -/
def firstHttpIdx : List Char → Option Nat
  | [] => none
  | c :: cs =>
    match stripPfx httpPat (c :: cs) with
    | some _ => some 0
    | none => (firstHttpIdx cs).map (· + 1)

/-- Whether `pat` occurs as a contiguous run somewhere in the text
(Python's `pat in text`). -/
def containsSeq (pat : List Char) : List Char → Bool
  | [] => decide (pat = [])
  | c :: cs => (stripPfx pat (c :: cs)).isSome || containsSeq pat cs

/-- Remove trailing characters satisfying `q` (the right half of
Python's `str.strip()`). -/
def trimRight (q : Char → Bool) : List Char → List Char
  | [] => []
  | c :: cs =>
    let r := trimRight q cs
    if r = [] && q c then [] else c :: r

/-- Python's `str.strip()`: leading and trailing whitespace removed. -/
def pyStrip (l : List Char) : List Char := trimRight wsChar (l.dropWhile wsChar)

/-- Python's `str.split(sep)` for a one-character separator (used for
`response.split('\n')` in `identify_top_topics`).  `"".split(c)` is
`[""]`, hence the `[[]]` base case. -/
def splitOnChar (sep : Char) : List Char → List (List Char)
  | [] => [[]]
  | c :: cs =>
    let r := splitOnChar sep cs
    if c = sep then [] :: r
    else
      match r with
      | [] => [[c]]
      | g :: gs => (c :: g) :: gs

/-- Python's `sep.join(parts)`. -/
def joinSep (sep : String) : List String → String
  | [] => ""
  | [s] => s
  | s :: rest => s ++ sep ++ joinSep sep rest

/-- The loop body of `split_email_by_tokens` (`get_top_topics.py`,
lines 31-42): running chunk and running token count; when the next
record would push the running count over the budget, the running chunk
is closed (note: the source closes it even when it is empty) and the
record starts a new chunk; after the loop a non-empty running chunk is
closed.  Chunks are kept as lists of their records; the source renders
each chunk as `' '.join(chunk)`. -/
def splitLoop (count_tokens : String → Nat) (max_tokens : Nat) :
    List String → List String → Nat → List (List String)
  | [], current_chunk, _ =>
    if current_chunk = [] then [] else [current_chunk]
  | w :: ws, current_chunk, current_length =>
    let word_length := count_tokens (w ++ " ")
    if current_length + word_length > max_tokens then
      current_chunk :: splitLoop count_tokens max_tokens ws [w] word_length
    else
      splitLoop count_tokens max_tokens ws (current_chunk ++ [w]) (current_length + word_length)

/-- `split_email_by_tokens(email_text, max_tokens)` of
`get_top_topics.py`, the token-budget batcher (the spec's
`make_batches`): the records are the words of the email
(`email_text.split()`), each record's cost is
`count_tokens(word + ' ')`, and the budget is `max_tokens`. -/
def split_email_by_tokens (count_tokens : String → Nat)
    (words : List String) (max_tokens : Nat) : List (List String) :=
  splitLoop count_tokens max_tokens words [] 0

/-- The fixed-count chunking `summaries[i:i + batch_size] for i in
range(0, len(summaries), batch_size)` of
`batch_summarize_and_identify_topics`.  A step of `0` raises
`ValueError` in Python, so the `0` case is never reached by the source;
it is mapped to `[]`. -/
def chunksOf {α : Type} : Nat → List α → List (List α)
  | _, [] => []
  | 0, _ :: _ => []
  | b + 1, x :: xs =>
    (x :: xs).take (b + 1) :: chunksOf (b + 1) ((x :: xs).drop (b + 1))
termination_by _ l => l.length
decreasing_by
  simp only [List.length_drop, List.length_cons]
  omega

/-- `generate_prompt(content, instruction)` of `utils.py`:
`f"{instruction}\n{content}"`. -/
def generate_prompt (content instruction : String) : String :=
  instruction ++ "\n" ++ content

/-- The stage-2 instruction of `batch_summarize_and_identify_topics`. -/
def batchInstr : String :=
  "Identify the most important and frequent topics discussed in these emails. Return the topics in a bulleted list along with links."

/-- `batch_summarize_and_identify_topics(summaries, batch_size)` of
`get_top_topics_and_links.py` (and `get_top_topics.py`): the summaries
are cut into consecutive `batch_size`-element slices; each slice is
joined with blank lines, wrapped into a prompt and sent to the
completion service; the per-batch results are returned in batch order.
`complete` is the black-box completion call; the second component is
the ordered list of prompts issued. -/
def batch_summarize_and_identify_topics (complete : String → String)
    (summaries : List String) (batch_size : Nat) : List String × List String :=
  let prompts := (chunksOf batch_size summaries).map
    (fun batch => generate_prompt (joinSep "\n\n" batch) batchInstr)
  (prompts.map complete, prompts)

/-- The prompt built by `identify_top_topics` in `get_summaries.py`
(the f-string uses a backslash line continuation, so the source's
indentation is part of the literal). -/
def topicsPrompt (emails_text : String) : String :=
  "Identify the top 5-10 most important topics discussed in the following emails:\n\n"
    ++ emails_text
    ++ "         Return only the topics in a list with no additional text."

/-- `identify_top_topics(emails_text)` of `get_summaries.py`: one
completion call; its result is split on newlines, each line stripped,
and blank lines dropped.  Returns the topics and the prompts issued. -/
def identify_top_topics (complete : String → String)
    (emails_text : String) : List (List Char) × List String :=
  let prompt := topicsPrompt emails_text
  let topics := splitOnChar '\n' (complete prompt).toList
  ((topics.map pyStrip).filter (· ≠ []), [prompt])

/-- The per-topic payload of `summarize_and_extract_links`:
`{'summary': ..., 'links': [...]}`. -/
structure TopicData where
  summary : List Char
  links : List (List Char)
deriving DecidableEq, Repr, Inhabited

/-- The split-on-first-`http` heuristic applied to one completion
result (`get_summaries.py`, lines 141-148): when `http` occurs, the
text before the first occurrence, stripped, is the summary, and the
links are extracted from `'http' + links_text` (the marker is put back
before scanning); otherwise the whole result, stripped, is the summary
and there are no links. -/
def splitSummaryLinks (response : List Char) : List Char × List (List Char) :=
  match splitHttp response with
  | some (summary, links_text) => (pyStrip summary, extract_links (httpPat ++ links_text))
  | none => (pyStrip response, [])

/-- `topic_data[topic]['summary'] = summary;
topic_data[topic]['links'].extend(links)` on the `defaultdict`: a dict
keyed by the topic label, insertion ordered; an existing entry has its
summary overwritten and its links extended, a missing one is created. -/
def updateTopic (m : List (List Char × TopicData)) (t : List Char)
    (s : List Char) (ls : List (List Char)) : List (List Char × TopicData) :=
  match m with
  | [] => [(t, ⟨s, ls⟩)]
  | (k, d) :: rest =>
    if k = t then (k, ⟨s, d.links ++ ls⟩) :: rest
    else (k, d) :: updateTopic rest t s ls

/-- The per-topic prompt of `summarize_and_extract_links`. -/
def topicPrompt (topic : List Char) (emails_text : String) : String :=
  "Summarize the topic \x27" ++ String.mk topic
    ++ "\x27 based on the following emails and extract all relevant links:\n\n"
    ++ emails_text
    ++ "\n\nReturn the summary first, followed by a list of links."

/-- The loop of `summarize_and_extract_links` (`get_summaries.py`,
lines 134-151): one completion call per topic, in order; the result is
split by the `http` heuristic and written into the topic dict.  The
accumulator carries the dict and the prompts issued so far. -/
def saelGo (complete : String → String) (emails_text : String) :
    List (List Char) → List (List Char × TopicData) × List String →
    List (List Char × TopicData) × List String
  | [], acc => acc
  | t :: ts, (m, log) =>
    let prompt := topicPrompt t emails_text
    let response := complete prompt
    let sl := splitSummaryLinks response.toList
    saelGo complete emails_text ts (updateTopic m t sl.1 sl.2, log ++ [prompt])

/-- `summarize_and_extract_links(topics, emails_text)` of
`get_summaries.py`: the topic-to-payload mapping (as the insertion
ordered dict) and the ordered prompts issued. -/
def summarize_and_extract_links (complete : String → String)
    (emails_text : String) (topics : List (List Char)) :
    List (List Char × TopicData) × List String :=
  saelGo complete emails_text topics ([], [])

/-- `format_output(topic_data)` of `get_summaries.py`: one section per
dict entry, joined with newlines. -/
def format_output (topic_data : List (List Char × TopicData)) : String :=
  joinSep "\n" (topic_data.map (fun e =>
    "Topic: " ++ String.mk e.1 ++ "\nSummary: " ++ String.mk e.2.summary
      ++ "\nLinks:\n" ++ joinSep "\n" (e.2.links.map String.mk) ++ "\n"))

/-- The terminal state of one run of `main` in `get_summaries.py`:
empty message source, no usable topics, or the formatted output. -/
inductive RunResult where
  | emptySource
  | noTopics
  | output (s : String)
deriving DecidableEq, Repr

/-- `main()` of `get_summaries.py` from the fetched records on: empty
source returns at once; otherwise the emails are joined with blank
lines, topics identified, and the topic summaries formatted.  The
second component is the ordered list of completion prompts issued
during the run. -/
def mainPipeline (complete : String → String)
    (email_texts : List String) : RunResult × List String :=
  if email_texts = [] then (.emptySource, [])
  else
    let combined := joinSep "\n\n" email_texts
    let idt := identify_top_topics complete combined
    if idt.1 = [] then (.noTopics, idt.2)
    else
      let sael := summarize_and_extract_links complete combined idt.1
      (.output (format_output sael.1), idt.2 ++ sael.2)

/-- Outcome of one attempt of the OpenAI chat completion call: a
result, or a `RateLimitError`. -/
inductive Attempt where
  | ok (text : String)
  | rateLimited
deriving DecidableEq, Repr

/-- Outcome of `openai_request`: the completion text, or the
`TransientServiceError` raised after the retry budget is exhausted. -/
inductive ReqResult where
  | success (text : String)
  | transientError
deriving DecidableEq, Repr

/-- The `while retries < MAX_RETRIES` loop of `openai_request` in
`utils.py` (lines 92-114).  `attempt k` is the outcome of the `k`-th
call of the black-box service; `fuel` is `MAX_RETRIES - retries`, so
the loop exits with the error when it reaches `0`.  On a rate limit the
current delay is slept (recorded in the returned list) and then
multiplied by the backoff factor.  Delays are in whole seconds; the
source reads them from `config.yaml`. -/
def openaiLoop (attempt : Nat → Attempt) (backoff_factor : Nat) :
    Nat → Nat → Nat → ReqResult × List Nat
  | 0, _, _ => (.transientError, [])
  | fuel + 1, retries, delay =>
    match attempt retries with
    | .ok t => (.success t, [])
    | .rateLimited =>
      let r := openaiLoop attempt backoff_factor fuel (retries + 1) (delay * backoff_factor)
      (r.1, delay :: r.2)

/-- `openai_request(prompt)` of `utils.py`: up to `max_retries`
attempts starting with delay `initial_delay`, the delay multiplied by
`backoff_factor` after each rate-limit failure; raises (returns
`transientError`) once the retry budget is exhausted.  Returns the
result together with the ordered list of slept delays. -/
def openai_request (attempt : Nat → Attempt)
    (max_retries initial_delay backoff_factor : Nat) : ReqResult × List Nat :=
  openaiLoop attempt backoff_factor max_retries 0 initial_delay

/-! ## Lemmas about the token-budget batcher -/

lemma splitLoop_flatten (count_tokens : String → Nat) (max_tokens : Nat) :
    ∀ (ws chunk : List String) (len : Nat),
      (splitLoop count_tokens max_tokens ws chunk len).flatten = chunk ++ ws := by
  intro ws
  induction ws with
  | nil =>
    intro chunk len
    by_cases h : chunk = [] <;> simp [splitLoop, h]
  | cons w ws ih =>
    intro chunk len
    simp only [splitLoop]
    split
    · simp [ih]
    · simp [ih]

lemma splitLoop_single (count_tokens : String → Nat) (budget : Nat) :
    ∀ (ws chunk : List String) (len : Nat),
      len + (ws.map (fun w => count_tokens (w ++ " "))).sum ≤ budget →
      splitLoop count_tokens budget ws chunk len
        = if chunk ++ ws = [] then [] else [chunk ++ ws] := by
  intro ws
  induction ws with
  | nil =>
    intro chunk len _
    by_cases h : chunk = [] <;> simp [splitLoop, h]
  | cons w ws ih =>
    intro chunk len hle
    simp only [List.map_cons, List.sum_cons] at hle
    have hnot : ¬ (len + count_tokens (w ++ " ") > budget) := by omega
    simp only [splitLoop, if_neg hnot]
    rw [ih (chunk ++ [w]) (len + count_tokens (w ++ " ")) (by omega)]
    simp

/-! ## Claims about the token-budget batcher -/

/-- C1: for every input sequence of records and every positive budget,
the batches of `split_email_by_tokens` have record counts summing to
the input length, and their concatenation is the input sequence itself
(global order preserved, no record duplicated or omitted). -/
theorem batcher_partition (count_tokens : String → Nat) (records : List String)
    (budget : Nat) (hb : 0 < budget) :
    ((split_email_by_tokens count_tokens records budget).map List.length).sum
        = records.length
      ∧ (split_email_by_tokens count_tokens records budget).flatten = records := by
  have hf : (split_email_by_tokens count_tokens records budget).flatten = records :=
    splitLoop_flatten count_tokens budget records [] 0
  refine ⟨?_, hf⟩
  rw [← List.length_flatten, hf]

theorem batcher_partition_witness :
    0 < 7
      ∧ ((split_email_by_tokens (fun _ => 3) ["a", "b", "c"] 7).map List.length).sum = 3
      ∧ (split_email_by_tokens (fun _ => 3) ["a", "b", "c"] 7).flatten = ["a", "b", "c"] :=
  ⟨by decide, batcher_partition (fun _ => 3) ["a", "b", "c"] 7 (by decide)⟩

/-- C2: evaluation of the code at the failing input.  A single record
whose own cost (5) exceeds the budget (3) is not simply placed alone in
its own batch: the loop first closes the still-empty running batch, so
the output contains an empty batch, contradicting the claim (and the
spec's guarantee that no batch is empty unless the input is empty). -/
theorem batcher_empty_batch_on_oversized_first :
    split_email_by_tokens (fun _ => 5) ["W"] 3 = [[], ["W"]]
      ∧ [] ∈ split_email_by_tokens (fun _ => 5) ["W"] 3 := by
  constructor <;> decide

/-- C5: 12 records each costing 1000 tokens with budget 4096 yield
exactly 3 batches of sizes [4, 4, 4], in input order. -/
theorem batcher_twelve_records :
    (split_email_by_tokens (fun _ => 1000) (List.replicate 12 "record") 4096).map
        List.length = [4, 4, 4]
      ∧ (split_email_by_tokens (fun _ => 1000) (List.replicate 12 "record") 4096).flatten
        = List.replicate 12 "record" := by
  constructor <;> decide

/-- C6 counterexample: for the empty input sequence (whose total cost 0
is at most any budget) the batcher returns zero batches, not exactly
one batch containing all the records. -/
theorem batcher_empty_input_no_batch :
    (split_email_by_tokens (fun _ => 1) [] 5).length = 0
      ∧ ¬ (split_email_by_tokens (fun _ => 1) [] 5).length = 1 := by
  constructor <;> decide

/-- C6 (amended): for every non-empty input sequence and every budget
at least the total cost of all records, the batcher produces exactly
one batch containing all the records. -/
theorem batcher_single_batch (count_tokens : String → Nat) (records : List String)
    (budget : Nat) (hne : records ≠ [])
    (hle : (records.map (fun w => count_tokens (w ++ " "))).sum ≤ budget) :
    split_email_by_tokens count_tokens records budget = [records] := by
  unfold split_email_by_tokens
  rw [splitLoop_single count_tokens budget records [] 0 (by simpa using hle)]
  simp [hne]

theorem batcher_single_batch_witness :
    (["x", "y"] : List String) ≠ []
      ∧ split_email_by_tokens (fun _ => 2) ["x", "y"] 10 = [["x", "y"]] :=
  ⟨by decide, batcher_single_batch (fun _ => 2) ["x", "y"] 10 (by decide) (by decide)⟩

/-! ## Lemmas about the fixed-count chunking -/

lemma chunksOf_flatten_aux {α : Type} (b : Nat) :
    ∀ (n : Nat) (l : List α), l.length ≤ n → (chunksOf (b + 1) l).flatten = l := by
  intro n
  induction n with
  | zero =>
    intro l hl
    have hnil : l = [] := by cases l <;> simp_all
    subst hnil
    simp [chunksOf]
  | succ n ih =>
    intro l hl
    cases l with
    | nil => simp [chunksOf]
    | cons x xs =>
      rw [chunksOf, List.flatten_cons,
        ih ((x :: xs).drop (b + 1)) (by rw [List.length_drop]; simp at hl ⊢; omega)]
      exact List.take_append_drop (b + 1) (x :: xs)

lemma chunksOf_flatten {α : Type} (b : Nat) (hb : 0 < b) (l : List α) :
    (chunksOf b l).flatten = l := by
  obtain ⟨b', rfl⟩ : ∃ b', b = b' + 1 := ⟨b - 1, by omega⟩
  exact chunksOf_flatten_aux b' l.length l le_rfl

lemma chunksOf_map_length_aux {α : Type} (b : Nat) :
    ∀ (n : Nat) (l : List α), l.length ≤ n →
      (chunksOf (b + 1) l).map List.length
        = List.replicate (l.length / (b + 1)) (b + 1)
            ++ (if l.length % (b + 1) = 0 then [] else [l.length % (b + 1)]) := by
  intro n
  induction n with
  | zero =>
    intro l hl
    have hnil : l = [] := by cases l <;> simp_all
    subst hnil
    simp [chunksOf]
  | succ n ih =>
    intro l hl
    cases l with
    | nil => simp [chunksOf]
    | cons x xs =>
      rw [chunksOf]
      rcases Nat.lt_or_ge (x :: xs).length (b + 1) with hlt | hge
      · have hdrop : (x :: xs).drop (b + 1) = [] := by
          apply List.eq_nil_of_length_eq_zero
          rw [List.length_drop]
          omega
        have htake : (x :: xs).take (b + 1) = x :: xs :=
          List.take_of_length_le (by omega)
        rw [hdrop, htake, Nat.div_eq_of_lt hlt, Nat.mod_eq_of_lt hlt]
        have hne : ¬ (x :: xs).length = 0 := by simp
        simp [chunksOf, hne]
      · have htake : ((x :: xs).take (b + 1)).length = b + 1 :=
          List.length_take_of_le hge
        rw [List.map_cons,
          ih ((x :: xs).drop (b + 1)) (by rw [List.length_drop]; simp at hl ⊢; omega),
          List.length_drop, htake]
        have e : (x :: xs).length = ((x :: xs).length - (b + 1)) + (b + 1) := by omega
        have hdiv : (x :: xs).length / (b + 1) = ((x :: xs).length - (b + 1)) / (b + 1) + 1 := by
          conv_lhs => rw [e]
          exact Nat.add_div_right _ (by omega)
        have hmod : (x :: xs).length % (b + 1) = ((x :: xs).length - (b + 1)) % (b + 1) := by
          conv_lhs => rw [e]
          exact Nat.add_mod_right _ _
        rw [hdiv, hmod, List.replicate_succ, List.cons_append]

lemma chunksOf_map_length {α : Type} (b : Nat) (hb : 0 < b) (l : List α) :
    (chunksOf b l).map List.length
      = List.replicate (l.length / b) b
          ++ (if l.length % b = 0 then [] else [l.length % b]) := by
  obtain ⟨b', rfl⟩ : ∃ b', b = b' + 1 := ⟨b - 1, by omega⟩
  exact chunksOf_map_length_aux b' l.length l le_rfl

lemma ceil_div_eq (b n : Nat) (hb : 0 < b) :
    n / b + (if n % b = 0 then 0 else 1) = (n + b - 1) / b := by
  obtain ⟨q, r, hr, hqr⟩ : ∃ q r, r < b ∧ n = b * q + r :=
    ⟨n / b, n % b, Nat.mod_lt _ hb, (Nat.div_add_mod n b).symm⟩
  have hdivq : n / b = q := by
    rw [hqr, Nat.mul_add_div hb, Nat.div_eq_of_lt hr, Nat.add_zero]
  have hmodr : n % b = r := by
    rw [hqr, Nat.mul_add_mod, Nat.mod_eq_of_lt hr]
  rw [hdivq, hmodr]
  by_cases h0 : r = 0
  · subst h0
    have he : n + b - 1 = b * q + (b - 1) := by
      rw [hqr, Nat.add_zero, Nat.add_sub_assoc hb]
    rw [he, Nat.mul_add_div hb, Nat.div_eq_of_lt (by omega), if_pos rfl]
  · have he : n + b - 1 = b * (q + 1) + (r - 1) := by
      rw [hqr, Nat.mul_succ]
      generalize b * q = t
      omega
    rw [he, Nat.mul_add_div hb, Nat.div_eq_of_lt (by omega), if_neg h0]

/-- C10: for `n` summaries and batch size `b > 0`,
`batch_summarize_and_identify_topics` issues exactly `⌈n / b⌉`
completion calls (computed as `(n + b - 1) / b`); the results are, in
batch order, one completion result per consecutive slice; the slices
concatenate back to the input in order, every slice except possibly the
last has exactly `b` elements, and the last holds the remaining
`n % b` when `b` does not divide `n`. -/
theorem fixed_batching_shape (complete : String → String)
    (summaries : List String) (b : Nat) (hb : 0 < b) :
    (batch_summarize_and_identify_topics complete summaries b).2.length
        = (summaries.length + b - 1) / b
      ∧ (batch_summarize_and_identify_topics complete summaries b).1
        = (chunksOf b summaries).map
            (fun batch => complete (generate_prompt (joinSep "\n\n" batch) batchInstr))
      ∧ (chunksOf b summaries).flatten = summaries
      ∧ (chunksOf b summaries).map List.length
        = List.replicate (summaries.length / b) b
            ++ (if summaries.length % b = 0 then [] else [summaries.length % b]) := by
  refine ⟨?_, ?_, chunksOf_flatten b hb summaries, chunksOf_map_length b hb summaries⟩
  · have hc : (chunksOf b summaries).length
        = summaries.length / b + (if summaries.length % b = 0 then 0 else 1) := by
      have hlen := congrArg List.length (chunksOf_map_length b hb summaries)
      simpa [List.length_append, apply_ite List.length] using hlen
    simp only [batch_summarize_and_identify_topics, List.length_map]
    rw [hc, ceil_div_eq b summaries.length hb]
  · simp only [batch_summarize_and_identify_topics, List.map_map]
    rfl

theorem fixed_batching_shape_witness :
    (batch_summarize_and_identify_topics (fun s => s) ["a", "b", "c"] 2).2.length = 2 := by
  have h := (fixed_batching_shape (fun s => s) ["a", "b", "c"] 2 (by decide)).1
  simpa using h

/-! ## Lemmas about the split-on-http heuristic -/

lemma stripPfx_some {p u r : List Char} (h : stripPfx p u = some r) : u = p ++ r := by
  induction p generalizing u with
  | nil =>
    simp only [stripPfx, Option.some.injEq] at h
    simp [h]
  | cons a ps ih =>
    cases u with
    | nil => simp [stripPfx] at h
    | cons c cs =>
      simp only [stripPfx] at h
      split at h
      · rename_i hac
        subst hac
        simpa using ih h
      · exact absurd h (by simp)

lemma stripPfx_append (p r : List Char) : stripPfx p (p ++ r) = some r := by
  induction p with
  | nil => rfl
  | cons a ps ih => simp [stripPfx, ih]

lemma splitHttp_spec :
    ∀ cs : List Char,
      (splitHttp cs = none → firstHttpIdx cs = none)
      ∧ (∀ b a, splitHttp cs = some (b, a) →
          ∃ i, firstHttpIdx cs = some i ∧ b = cs.take i ∧ httpPat ++ a = cs.drop i
            ∧ containsSeq httpPat b = false) := by
  intro cs
  induction cs with
  | nil =>
    refine ⟨fun _ => rfl, fun b a h => ?_⟩
    simp [splitHttp] at h
  | cons c cs ih =>
    rcases h1 : stripPfx httpPat (c :: cs) with _ | rest
    · rcases h2 : splitHttp cs with _ | ba
      · refine ⟨fun _ => ?_, fun b a h => ?_⟩
        · simp only [firstHttpIdx, h1]
          rw [ih.1 h2]
          rfl
        · simp only [splitHttp, h1, h2] at h
          exact Option.noConfusion h
      · obtain ⟨b', a'⟩ := ba
        obtain ⟨i, hidx, htake, hdrop, hcont⟩ := ih.2 b' a' h2
        refine ⟨fun h => ?_, fun b a h => ?_⟩
        · simp only [splitHttp, h1, h2] at h
          exact Option.noConfusion h
        · simp only [splitHttp, h1, h2, Option.some.injEq, Prod.mk.injEq] at h
          obtain ⟨hb, ha⟩ := h
          subst hb
          subst ha
          refine ⟨i + 1, ?_, ?_, ?_, ?_⟩
          · simp [firstHttpIdx, h1, hidx]
          · rw [List.take_succ_cons, ← htake]
          · rw [List.drop_succ_cons, hdrop]
          · simp only [containsSeq, Bool.or_eq_false_iff]
            refine ⟨?_, hcont⟩
            cases hsp : stripPfx httpPat (c :: b') with
            | none => rfl
            | some r =>
              exfalso
              have hcb : c :: b' = httpPat ++ r := stripPfx_some hsp
              have hsplit : c :: cs = httpPat ++ (r ++ (httpPat ++ a')) := by
                have hx : c :: cs = (c :: b') ++ (httpPat ++ a') := by
                  rw [hdrop, htake]
                  simp [List.take_append_drop]
                rw [hx, hcb, List.append_assoc]
              have hy := stripPfx_append httpPat (r ++ (httpPat ++ a'))
              rw [← hsplit, h1] at hy
              exact Option.noConfusion hy
    · refine ⟨fun h => ?_, fun b a h => ?_⟩
      · simp only [splitHttp, h1] at h
        exact Option.noConfusion h
      · simp only [splitHttp, h1, Option.some.injEq, Prod.mk.injEq] at h
        obtain ⟨hb, ha⟩ := h
        subst hb
        subst ha
        refine ⟨0, ?_, ?_, ?_, ?_⟩
        · simp [firstHttpIdx, h1]
        · rfl
        · rw [List.drop_zero]
          exact (stripPfx_some h1).symm
        · rfl

lemma splitHttp_none_not_contains :
    ∀ cs : List Char, splitHttp cs = none → containsSeq httpPat cs = false := by
  intro cs
  induction cs with
  | nil => intro _; rfl
  | cons c cs ih =>
    intro h
    rcases h1 : stripPfx httpPat (c :: cs) with _ | rest
    · rcases h2 : splitHttp cs with _ | ba
      · simp [containsSeq, h1, ih h2]
      · obtain ⟨b', a'⟩ := ba
        simp [splitHttp, h1, h2] at h
    · simp [splitHttp, h1] at h

lemma containsSeq_nil_pat : ∀ t : List Char, containsSeq [] t = true := by
  intro t
  cases t <;> simp [containsSeq, stripPfx]

lemma containsSeq_append_left (pat : List Char) :
    ∀ (x l : List Char), containsSeq pat l = true → containsSeq pat (x ++ l) = true := by
  intro x
  induction x with
  | nil => intro l h; simpa
  | cons c x ih =>
    intro l h
    simp only [List.cons_append, containsSeq, Bool.or_eq_true]
    exact Or.inr (ih l h)

lemma stripPfx_extend {p l r : List Char} (h : stripPfx p l = some r) (t : List Char) :
    stripPfx p (l ++ t) = some (r ++ t) := by
  rw [stripPfx_some h, List.append_assoc]
  exact stripPfx_append p (r ++ t)

lemma containsSeq_append_right (pat : List Char) :
    ∀ (l t : List Char), containsSeq pat l = true → containsSeq pat (l ++ t) = true := by
  intro l
  induction l with
  | nil =>
    intro t h
    simp only [containsSeq, decide_eq_true_eq] at h
    subst h
    simpa using containsSeq_nil_pat t
  | cons c l ih =>
    intro t h
    simp only [containsSeq, Bool.or_eq_true] at h
    rcases h with h | h
    · obtain ⟨r, hr⟩ := Option.isSome_iff_exists.mp h
      have hx := stripPfx_extend hr t
      rw [List.cons_append] at hx
      simp only [List.cons_append, containsSeq, Bool.or_eq_true]
      refine Or.inl ?_
      have hx' : stripPfx pat (c :: List.append l t) = some (r ++ t) := hx
      rw [hx']
      rfl
    · simp only [List.cons_append, containsSeq, Bool.or_eq_true]
      exact Or.inr (ih t h)

lemma trimRight_append (q : Char → Bool) :
    ∀ l : List Char, ∃ t, l = trimRight q l ++ t := by
  intro l
  induction l with
  | nil => exact ⟨[], rfl⟩
  | cons c cs ih =>
    obtain ⟨t, ht⟩ := ih
    simp only [trimRight]
    split
    · exact ⟨c :: cs, by simp⟩
    · exact ⟨t, by rw [List.cons_append, ← ht]⟩

lemma containsSeq_pyStrip_false {pat l : List Char}
    (h : containsSeq pat l = false) : containsSeq pat (pyStrip l) = false := by
  cases hc : containsSeq pat (pyStrip l) with
  | false => rfl
  | true =>
    exfalso
    obtain ⟨t, ht⟩ := trimRight_append wsChar (l.dropWhile wsChar)
    have h1 : containsSeq pat (pyStrip l ++ t) = true :=
      containsSeq_append_right pat _ t hc
    have hps : pyStrip l = trimRight wsChar (l.dropWhile wsChar) := rfl
    rw [hps, ← ht] at h1
    have h2 : containsSeq pat (l.takeWhile wsChar ++ l.dropWhile wsChar) = true :=
      containsSeq_append_left pat _ _ h1
    rw [List.takeWhile_append_dropWhile] at h2
    rw [h2] at h
    exact Bool.noConfusion h

/-! ## Claims about the link extraction heuristic -/

/-- C3: for every completion result, if `http` occurs (first occurrence
at index `i`), the summary is exactly the text before that index,
stripped, and the links are exactly the ordered URL-pattern matches of
the text from that index onward; if `http` does not occur, the summary
is the whole result, stripped, and there are no links. -/
theorem link_extraction_split (response : List Char) :
    (∀ i, firstHttpIdx response = some i →
        splitSummaryLinks response
          = (pyStrip (response.take i), findall_urls (response.drop i)))
      ∧ (firstHttpIdx response = none →
        splitSummaryLinks response = (pyStrip response, [])) := by
  rcases hs : splitHttp response with _ | ba
  · have hidx := (splitHttp_spec response).1 hs
    refine ⟨fun i hi => ?_, fun _ => ?_⟩
    · rw [hidx] at hi
      exact Option.noConfusion hi
    · simp [splitSummaryLinks, hs]
  · obtain ⟨b, a⟩ := ba
    obtain ⟨i0, hidx, htake, hdrop, -⟩ := (splitHttp_spec response).2 b a hs
    refine ⟨fun i hi => ?_, fun hn => ?_⟩
    · rw [hidx, Option.some.injEq] at hi
      subst hi
      simp only [splitSummaryLinks, hs, extract_links]
      rw [← htake, hdrop]
    · rw [hidx] at hn
      exact Option.noConfusion hn

theorem link_extraction_split_witness :
    firstHttpIdx "See http://a.b now".toList = some 4
      ∧ splitSummaryLinks "See http://a.b now".toList
        = (pyStrip ("See http://a.b now".toList.take 4),
           findall_urls ("See http://a.b now".toList.drop 4)) :=
  ⟨by decide, (link_extraction_split "See http://a.b now".toList).1 4 (by decide)⟩

/-- C4: the summary half produced by the split-on-first-`http`
heuristic never contains the literal marker `http`: everything from the
first occurrence onward goes to the links portion. -/
theorem summary_no_marker (response : List Char) :
    containsSeq httpPat (splitSummaryLinks response).1 = false := by
  rcases hs : splitHttp response with _ | ba
  · have hc := splitHttp_none_not_contains response hs
    simp only [splitSummaryLinks, hs]
    exact containsSeq_pyStrip_false hc
  · obtain ⟨b, a⟩ := ba
    obtain ⟨i, -, -, -, hcont⟩ := (splitHttp_spec response).2 b a hs
    simp only [splitSummaryLinks, hs]
    exact containsSeq_pyStrip_false hcont

/-! ## Lemmas about the topic dictionary -/

lemma updateTopic_keys (t : List Char) (s : List Char) (ls : List (List Char)) :
    ∀ m : List (List Char × TopicData),
      (updateTopic m t s ls).map Prod.fst
        = if t ∈ m.map Prod.fst then m.map Prod.fst else m.map Prod.fst ++ [t] := by
  intro m
  induction m with
  | nil => simp [updateTopic]
  | cons e rest ih =>
    obtain ⟨k, d⟩ := e
    by_cases hk : k = t
    · subst hk
      simp [updateTopic]
    · simp only [updateTopic, if_neg hk, List.map_cons, ih]
      by_cases hm : t ∈ rest.map Prod.fst
      · simp [hm, Ne.symm hk]
      · simp [hm, Ne.symm hk]

lemma saelGo_keys (complete : String → String) (emails_text : String) :
    ∀ (ts : List (List Char)) (m : List (List Char × TopicData)) (log : List String),
      (m.map Prod.fst).Nodup →
      ((saelGo complete emails_text ts (m, log)).1.map Prod.fst).Nodup
        ∧ ∀ t, t ∈ (saelGo complete emails_text ts (m, log)).1.map Prod.fst
            ↔ t ∈ m.map Prod.fst ∨ t ∈ ts := by
  intro ts
  induction ts with
  | nil =>
    intro m log hnd
    refine ⟨hnd, fun t => ?_⟩
    simp [saelGo]
  | cons t0 ts ih =>
    intro m log hnd
    simp only [saelGo]
    have hkeys := updateTopic_keys t0
      (splitSummaryLinks (complete (topicPrompt t0 emails_text)).toList).1
      (splitSummaryLinks (complete (topicPrompt t0 emails_text)).toList).2 m
    have hnd' : ((updateTopic m t0
        (splitSummaryLinks (complete (topicPrompt t0 emails_text)).toList).1
        (splitSummaryLinks (complete (topicPrompt t0 emails_text)).toList).2).map
          Prod.fst).Nodup := by
      rw [hkeys]
      by_cases hmem : t0 ∈ m.map Prod.fst
      · simpa [hmem] using hnd
      · simp [hmem, List.nodup_append, hnd]
    have hih := ih _ (log ++ [topicPrompt t0 emails_text]) hnd'
    refine ⟨hih.1, fun t => ?_⟩
    rw [hih.2 t, hkeys]
    by_cases hmem : t0 ∈ m.map Prod.fst
    · simp only [if_pos hmem, List.mem_cons]
      constructor
      · rintro (h | h)
        · exact Or.inl h
        · exact Or.inr (Or.inr h)
      · rintro (h | h | h)
        · exact Or.inl h
        · subst h
          exact Or.inl hmem
        · exact Or.inr h
    · simp only [if_neg hmem, List.mem_append, List.mem_singleton, List.mem_cons]
      tauto

/-! ## Claims about topic aggregation, the empty source and the retry loop -/

/-- C7 counterexample: with the duplicated label list `["A", "A"]` the
topic dictionary of `summarize_and_extract_links` holds one entry, not
one entry per occurrence: duplicate labels are merged by the dict, not
treated as distinct keys. -/
theorem duplicate_topics_merged_counterexample :
    ([['A'], ['A']] : List (List Char)).length = 2
      ∧ (summarize_and_extract_links (fun _ => "x") "" [['A'], ['A']]).1.length = 1 := by
  constructor <;> decide

/-- C7 (amended): duplicate topic labels are merged into a single
dictionary entry rather than kept as distinct keys: the keys of the
mapping produced by `summarize_and_extract_links` are exactly the
distinct labels of the input (each label once, however often it
occurs); each occurrence still issues its own completion call and
re-writes the shared entry. -/
theorem duplicate_topics_merged (complete : String → String) (emails_text : String)
    (topics : List (List Char)) :
    ((summarize_and_extract_links complete emails_text topics).1.map Prod.fst).Nodup
      ∧ ∀ t, t ∈ (summarize_and_extract_links complete emails_text topics).1.map Prod.fst
          ↔ t ∈ topics := by
  have h := saelGo_keys complete emails_text topics [] [] (by simp)
  refine ⟨h.1, fun t => ?_⟩
  have hm := h.2 t
  simpa [summarize_and_extract_links] using hm

/-- C8: with zero fetched records the pipeline terminates at once in
the empty-source state: no completion call is issued (the prompt log is
empty) and no formatted output is produced. -/
theorem empty_source_run (complete : String → String) :
    mainPipeline complete [] = (RunResult.emptySource, []) := rfl

/-! ## Lemmas about the retry loop -/

lemma openaiLoop_all_rate (attempt : Nat → Attempt) (f : Nat) :
    ∀ (fuel r d : Nat),
      (∀ k, r ≤ k → k < r + fuel → attempt k = .rateLimited) →
      openaiLoop attempt f fuel r d
        = (.transientError, (List.range fuel).map fun k => d * f ^ k) := by
  intro fuel
  induction fuel with
  | zero => intro r d _; rfl
  | succ fuel ih =>
    intro r d hall
    have hr : attempt r = .rateLimited := hall r le_rfl (by omega)
    simp only [openaiLoop, hr]
    rw [ih (r + 1) (d * f) (fun k hk1 hk2 => hall k (by omega) (by omega))]
    have hfun : (fun k => d * f * f ^ k) = ((fun k => d * f ^ k) ∘ Nat.succ) := by
      funext k
      simp only [Function.comp_apply, pow_succ]
      ring
    rw [List.range_succ_eq_map, List.map_cons, List.map_map, ← hfun]
    simp

lemma openaiLoop_success (attempt : Nat → Attempt) (f : Nat) (t : String) :
    ∀ (j fuel r d : Nat), j < fuel →
      attempt (r + j) = .ok t →
      (∀ k, r ≤ k → k < r + j → attempt k = .rateLimited) →
      (openaiLoop attempt f fuel r d).1 = .success t := by
  intro j
  induction j with
  | zero =>
    intro fuel r d hj hok _
    obtain ⟨fuel, rfl⟩ : ∃ fuel', fuel = fuel' + 1 := ⟨fuel - 1, by omega⟩
    rw [Nat.add_zero] at hok
    simp [openaiLoop, hok]
  | succ j ih =>
    intro fuel r d hj hok hall
    obtain ⟨fuel, rfl⟩ : ∃ fuel', fuel = fuel' + 1 := ⟨fuel - 1, by omega⟩
    have hr : attempt r = .rateLimited := hall r le_rfl (by omega)
    simp only [openaiLoop, hr]
    exact ih fuel (r + 1) (d * f) (by omega)
      (by rw [show r + 1 + j = r + (j + 1) from by omega]; exact hok)
      (fun k hk1 hk2 => hall k (by omega) (by omega))

/-- C9: the completion call retries on rate limits with exponentially
increasing delays: if every attempt is rate limited, after exactly
`max_retries` attempts (slept delays
`initial_delay * backoff_factor ^ k` for `k < max_retries`) it fails
with the transient error rather than returning a result; if some
attempt `j` within the budget succeeds after rate limits, the call
returns that completion text. -/
theorem retry_backoff (attempt : Nat → Attempt)
    (max_retries initial_delay backoff_factor : Nat) :
    ((∀ k, k < max_retries → attempt k = .rateLimited) →
        openai_request attempt max_retries initial_delay backoff_factor
          = (.transientError,
             (List.range max_retries).map fun k => initial_delay * backoff_factor ^ k))
      ∧ (∀ j t, j < max_retries → attempt j = .ok t →
          (∀ k, k < j → attempt k = .rateLimited) →
          (openai_request attempt max_retries initial_delay backoff_factor).1
            = .success t) := by
  constructor
  · intro hall
    exact openaiLoop_all_rate attempt backoff_factor max_retries 0 initial_delay
      (fun k _ hk2 => hall k (by omega))
  · intro j t hj hok hall
    exact openaiLoop_success attempt backoff_factor t j max_retries 0 initial_delay hj
      (by simpa using hok) (fun k _ hk2 => hall k (by omega))

theorem retry_backoff_witness :
    openai_request (fun _ => Attempt.rateLimited) 3 2 5 = (.transientError, [2, 10, 50])
      ∧ (openai_request (fun k => if k = 0 then Attempt.rateLimited else .ok "hi") 2 4 3).1
        = .success "hi" := by
  constructor
  · have h := (retry_backoff (fun _ => Attempt.rateLimited) 3 2 5).1 (fun k _ => rfl)
    rw [h]
    decide
  · exact (retry_backoff (fun k => if k = 0 then Attempt.rateLimited else .ok "hi") 2 4 3).2
      1 "hi" (by decide) (by decide)
      (fun k hk => by
        have hk0 : k = 0 := by omega
        subst hk0
        rfl)

end EmailNewsSummarizer
